import Mathlib

/-!
Verification of the decoding/matching core of
`CondCore/SiPixelPlugins/plugins/SiPixelDynamicInefficiency_PayloadInspector.cc`.

Identifiers are 32-bit raw `DetId` values, modelled as `Nat` with an explicit
`id < 2^32` bound where it matters.  Doubles are modelled as rationals.
Maps (`std::map`, `std::unordered_map`) are modelled as association lists in
iteration order.
-/

namespace SiPixDynIneff

/-- Bits 25-27 of a raw DetId: the subdetector tag (`DetId::subdetId()`). -/
def subdetId (id : Nat) : Nat := (id >>> 25) &&& 7

/-- Bits 28-31 of a raw DetId: the detector tag (`DetId::det()`). -/
def detOf (id : Nat) : Nat := (id >>> 28) &&& 15

/-- The `DetId(det, subdet)` constructor: a subsystem-only ("root") identifier
with all hierarchy fields zero. -/
def detIdFrom (det subdet : Nat) : Nat := ((det &&& 15) <<< 28) ||| ((subdet &&& 7) <<< 25)

/-- `PixelSubdetector::PixelBarrel` numeric value. -/
def pixelBarrel : Nat := 1

/-- The shift constants `BPixRocIdShift = 6`, `FPixRocIdShift = 3`, selected by
subdetector as in `pbrf`: barrel gets 6, otherwise 3. -/
def shiftOf (id : Nat) : Nat := if subdetId id = pixelBarrel then 6 else 3

/-- `rocIdMaskBits = 0x1F` shifted into place: `rocMask = rocIdMaskBits << shift`. -/
def rocMaskOf (id : Nat) : Nat := 31 <<< shiftOf id

/-- `rocId = (id & rocMask) >> shift`: the raw region (ROC) index of an identifier. -/
def rocIdOf (id : Nat) : Nat := (id &&& rocMaskOf id) >>> shiftOf id

/-- `rawid = id & ~rocMask` (32-bit complement): the module id with the region
field cleared. -/
def rawidOf (id : Nat) : Nat := id &&& (rocMaskOf id ^^^ (2 ^ 32 - 1))

/-- The record `packedBadRocFraction`: parallel lists of bad-ROC indices and
bad fractions. -/
structure packedBadRocFraction where
  badRocNumber : List Nat
  badRocFrac : List ℚ
deriving DecidableEq, Repr

/-- `BRFractions`: module id to packed record, as an insertion-ordered
association list. -/
abbrev BRFractions := List (Nat × packedBadRocFraction)

/-- The `f.find(rawid) == f.end()` guard followed by insertion of an empty
record in `pbrf`. -/
def insertEmpty (f : BRFractions) (k : Nat) : BRFractions :=
  if f.any (fun p => p.1 = k) then f else f ++ [(k, ⟨[], []⟩)]

/-- The two `emplace_back` calls in `pbrf`: append a decoded region index and
its bad fraction to the record stored at key `k`. -/
def appendRoc (f : BRFractions) (k : Nat) (r : Nat) (b : ℚ) : BRFractions :=
  f.map fun p => if p.1 = k then (p.1, ⟨p.2.badRocNumber ++ [r], p.2.badRocFrac ++ [b]⟩) else p

/-- One iteration of the loop body of `pbrf` on a map entry `(id, factor)`. -/
def pbrfStep (f : BRFractions) (e : Nat × ℚ) : BRFractions :=
  let rocId := rocIdOf e.1
  let rawid := rawidOf e.1
  let f' := insertEmpty f rawid
  if rocId ≠ 0 then appendRoc f' rawid (rocId - 1) (1 - e.2) else f'

/-- `pbrf`: unpack a flat factor map into per-module packed bad-ROC fractions. -/
def pbrf (input : List (Nat × ℚ)) : BRFractions :=
  input.foldl pbrfStep []

/-- Invariant carried through the `pbrf` fold: every stored record has
length-synchronized sequences and every emitted region index stems from an
already-processed entry with a nonzero raw region index decoding to that
module. -/
def recInv (seen : List (Nat × ℚ)) (f : BRFractions) : Prop :=
  ∀ mp ∈ f, mp.2.badRocNumber.length = mp.2.badRocFrac.length ∧
    ∀ r ∈ mp.2.badRocNumber, ∃ e ∈ seen,
      rawidOf e.1 = mp.1 ∧ rocIdOf e.1 ≠ 0 ∧ r = rocIdOf e.1 - 1

/-- The per-mask test inside the matching loops of `getMatchingGeomFactor` and
`getMatchingPUFactors`: a mask of a different subdetector than the stored id is
skipped; otherwise the masked bits must agree, or the stored masked bits must
equal the (unmasked) subsystem-root identifier. -/
def maskOk (detid mapid m : Nat) : Bool :=
  decide (subdetId m ≠ subdetId mapid) ||
  (detid &&& m == mapid &&& m) ||
  (mapid &&& m == detIdFrom (detOf mapid) (subdetId mapid))

/-- The matching predicate shared by `getMatchingGeomFactor` and
`getMatchingPUFactors`: subdetectors must agree and every mask must pass
`maskOk` (the code breaks at the first failing mask; the conjunction is the
same result). -/
def matchesId (detid mapid : Nat) (detIdmasks : List Nat) : Bool :=
  (subdetId mapid == subdetId detid) && detIdmasks.all (maskOk detid mapid)

/-- The per-mask test as the specification words it: identical to `maskOk`
except that the wildcard pattern is the subsystem-root identifier masked by the
mask (`root &&& m`), where the code compares against the unmasked root. -/
def maskOkSpec (detid mapid m : Nat) : Bool :=
  decide (subdetId m ≠ subdetId mapid) ||
  (detid &&& m == mapid &&& m) ||
  (mapid &&& m == (detIdFrom (detOf mapid) (subdetId mapid) &&& m))

/-- The matching predicate as the specification words it, for comparison with
`matchesId`. -/
def matchesIdSpec (detid mapid : Nat) (detIdmasks : List Nat) : Bool :=
  (subdetId mapid == subdetId detid) && detIdmasks.all (maskOkSpec detid mapid)

/-- `getMatchingGeomFactor`: product of the values of all matching map entries,
starting from 1. -/
def getMatchingGeomFactor (detid : Nat) (map_geomfactor : List (Nat × ℚ))
    (detIdmasks : List Nat) : ℚ :=
  map_geomfactor.foldl
    (fun acc e => if matchesId detid e.1 detIdmasks then acc * e.2 else acc) 1

/-- `getMatchingPUFactors`: scans the map in order; every matching entry
replaces the running result with its vector; starts empty. -/
def getMatchingPUFactors (detid : Nat) (map_pufactory : List (Nat × List ℚ))
    (detIdmasks : List Nat) : List ℚ :=
  map_pufactory.foldl
    (fun acc e => if matchesId detid e.1 detIdmasks then e.2 else acc) []

/-- The scheme tag `SiPixelPI::phase` with its three supported values. -/
inductive Phase
  | zero
  | one
  | two
deriving DecidableEq

/-- Modelled from the spec: the expected mask list that `checkPhase`
synthesizes from the externally loaded tracker topology
(`StandaloneTrackerTopology` and the per-phase `trackerParameters` files are
not part of this repository's sources).  Following the spec, each mask is a
maximal-value identifier in exactly one hierarchy field with all other fields
zero, three barrel fields first and then five forward fields, in the fixed
order of the eight push_back calls of `checkPhase`; the concrete per-phase
field bit layouts are modelled representative values. -/
def expectedMasks : Phase → List Nat
  | Phase.zero => [0x120F0000, 0x1200FF00, 0x120000FC,
      0x15800000, 0x140F0000, 0x1400FC00, 0x14000300, 0x140000FC]
  | Phase.one => [0x12F00000, 0x120FF000, 0x12000FFC,
      0x15800000, 0x143C0000, 0x1403F000, 0x14000C00, 0x140003FC]
  | Phase.two => [0x12F00000, 0x120FF000, 0x12000FFC,
      0x15800000, 0x147C0000, 0x1403F000, 0x14000C00, 0x140003FC]

/-- `checkPhase`: synthesize the expected masks for the phase and require the
supplied mask list to have the same size and equal elements in order
(`std::equal` guarded by the size comparison). -/
def checkPhase (phase : Phase) (masks_db : List Nat) : Bool :=
  let masks_geom := expectedMasks phase
  (masks_geom.length == masks_db.length) &&
    (List.zip masks_geom masks_db).all fun p => p.1 == p.2

/-- The odd-input adjustment at the head of `getClosestFactors`: an odd input
greater than 1 is incremented to the next even number. -/
def evenCover (input : Nat) : Nat :=
  if input % 2 ≠ 0 ∧ input > 1 then input + 1 else input

/-- Largest `k ≤ t` with `k * k ≤ n` (downward search for the integer square
root). -/
def isqrtFind (n : Nat) : Nat → Nat
  | 0 => 0
  | t + 1 => if (t + 1) * (t + 1) ≤ n then t + 1 else isqrtFind n t

/-- Integer square root, modelling the `(int)sqrt(input)` cast of
`getClosestFactors` on nonnegative input. -/
def isqrt (n : Nat) : Nat := isqrtFind n n

/-- The decrement loop of `getClosestFactors`: largest divisor of `input` not
exceeding the starting value. -/
def findDivisorDown (input : Nat) : Nat → Nat
  | 0 => 0
  | t + 1 => if input % (t + 1) = 0 then t + 1 else findDivisorDown input t

/-- `getClosestFactors`: round an odd input up to even, then return
`(testNum, input / testNum)` with `testNum` searched downward from the integer
square root. -/
def getClosestFactors (input : Nat) : Nat × Nat :=
  let i := evenCover input
  let t := findDivisorDown i (isqrt i)
  (t, i / t)

/-- The head of `getClosestFactors` on C ints (truncated remainder as in C),
the only computation preceding the square-root cast. -/
def adjustEven (input : Int) : Int :=
  if Int.tmod input 2 ≠ 0 ∧ input > 1 then input + 1 else input

/-! ## Helper lemmas -/

/-- A conditional-product left fold equals the initial value times the product
of the selected entries. -/
theorem foldl_mul_filter {α : Type} (p : α → Bool) (val : α → ℚ) (l : List α) (a : ℚ) :
    l.foldl (fun acc e => if p e then acc * val e else acc) a
      = a * ((l.filter p).map val).prod := by
  induction l generalizing a with
  | nil => simp
  | cons x xs ih =>
    by_cases h : p x
    · simp [h, ih, mul_assoc]
    · simp [h, ih]

/-- A conditional-replace left fold returns the last selected entry's value,
defaulting to the initial value. -/
theorem foldl_replace {α β : Type} (p : α → Bool) (val : α → β) (l : List α) (a : β) :
    l.foldl (fun acc e => if p e then val e else acc) a
      = ((l.filter p).map val).getLastD a := by
  induction l generalizing a with
  | nil => simp
  | cons x xs ih =>
    by_cases h : p x
    · rw [List.foldl_cons, if_pos h, ih, List.filter_cons_of_pos h, List.map_cons,
        List.getLastD_cons]
    · rw [List.foldl_cons, if_neg (by simp [h]), ih, List.filter_cons_of_neg (by simp [h])]

/-- Recombining the cleared module id with the re-shifted region index
reproduces any 32-bit identifier, for any region field of width 5 lying within
the 32 bits. -/
theorem land_compl_lor_roundtrip (id s : Nat) (hid : id < 2 ^ 32) (hs : s + 5 ≤ 32) :
    (id &&& ((31 <<< s) ^^^ (2 ^ 32 - 1))) ||| (((id &&& (31 <<< s)) >>> s) <<< s) = id := by
  apply Nat.eq_of_testBit_eq
  intro i
  have h31 : (31 : Nat) = 2 ^ 5 - 1 := by norm_num
  simp only [Nat.testBit_or, Nat.testBit_and, Nat.testBit_xor, Nat.testBit_shiftLeft,
    Nat.testBit_shiftRight, h31, Nat.testBit_two_pow_sub_one]
  by_cases hi32 : i < 32
  · by_cases hsi : s ≤ i
    · have hadd : s + (i - s) = i := by omega
      have hsub : s + (i - s) - s = i - s := by omega
      rw [hadd]
      by_cases h5 : i - s < 5
      · cases hb : id.testBit i <;> simp [hsi, h5, hi32, hb]
      · cases hb : id.testBit i <;> simp [hsi, h5, hi32, hb]
    · cases hb : id.testBit i <;> simp [hsi, hi32, hb]
  · have hb : id.testBit i = false :=
      Nat.testBit_lt_two_pow (lt_of_lt_of_le hid (Nat.pow_le_pow_right (by norm_num) (by omega)))
    have hadd : s + (i - s) = i := by omega
    rw [hadd]
    simp [hb]

/-- appendRoc never changes the key sequence. -/
theorem keys_appendRoc (f : BRFractions) (k r : Nat) (b : ℚ) :
    (appendRoc f k r b).map Prod.fst = f.map Prod.fst := by
  unfold appendRoc
  rw [List.map_map]
  apply List.map_congr_left
  intro p _
  by_cases h : p.1 = k <;> simp [h]

/-- insertEmpty is the identity when the key is already present. -/
theorem insertEmpty_of_mem (f : BRFractions) (k : Nat)
    (h : k ∈ f.map Prod.fst) : insertEmpty f k = f := by
  unfold insertEmpty
  rw [if_pos]
  rw [List.mem_map] at h
  obtain ⟨p, hp, hpk⟩ := h
  simp only [List.any_eq_true, decide_eq_true_eq]
  exact ⟨p, hp, hpk⟩

/-- insertEmpty appends a fresh empty record when the key is absent. -/
theorem insertEmpty_of_not_mem (f : BRFractions) (k : Nat)
    (h : k ∉ f.map Prod.fst) : insertEmpty f k = f ++ [(k, ⟨[], []⟩)] := by
  unfold insertEmpty
  rw [if_neg]
  simp only [List.any_eq_true, decide_eq_true_eq, not_exists]
  rintro p ⟨hp, hpk⟩
  exact h (List.mem_map.mpr ⟨p, hp, hpk⟩)

/-- Key membership after insertEmpty. -/
theorem mem_keys_insertEmpty (f : BRFractions) (k m : Nat) :
    m ∈ (insertEmpty f k).map Prod.fst ↔ (m ∈ f.map Prod.fst ∨ m = k) := by
  by_cases h : k ∈ f.map Prod.fst
  · rw [insertEmpty_of_mem f k h]
    constructor
    · exact Or.inl
    · rintro (hm | rfl)
      · exact hm
      · exact h
  · rw [insertEmpty_of_not_mem f k h]
    simp [or_comm]

/-- Key membership after a pbrf step. -/
theorem mem_keys_pbrfStep (f : BRFractions) (e : Nat × ℚ) (m : Nat) :
    m ∈ (pbrfStep f e).map Prod.fst ↔ (m ∈ f.map Prod.fst ∨ m = rawidOf e.1) := by
  simp only [pbrfStep]
  split
  · rw [keys_appendRoc]
    exact mem_keys_insertEmpty f _ m
  · exact mem_keys_insertEmpty f _ m

/-- Key membership after folding pbrf steps over a list of entries. -/
theorem mem_keys_pbrf_foldl (l : List (Nat × ℚ)) (f : BRFractions) (m : Nat) :
    m ∈ (l.foldl pbrfStep f).map Prod.fst ↔
      (m ∈ f.map Prod.fst ∨ m ∈ l.map fun e => rawidOf e.1) := by
  induction l generalizing f with
  | nil => simp
  | cons x xs ih =>
    rw [List.foldl_cons, ih, mem_keys_pbrfStep]
    simp only [List.map_cons, List.mem_cons]
    tauto

/-- A pbrf step keeps the key sequence duplicate-free. -/
theorem nodup_keys_pbrfStep (f : BRFractions) (e : Nat × ℚ)
    (h : (f.map Prod.fst).Nodup) : ((pbrfStep f e).map Prod.fst).Nodup := by
  have hins : ((insertEmpty f (rawidOf e.1)).map Prod.fst).Nodup := by
    by_cases hk : rawidOf e.1 ∈ f.map Prod.fst
    · rw [insertEmpty_of_mem f _ hk]
      exact h
    · rw [insertEmpty_of_not_mem f _ hk]
      simp only [List.map_append, List.map_cons, List.map_nil]
      rw [(List.perm_append_singleton _ _).nodup_iff]
      exact List.nodup_cons.mpr ⟨hk, h⟩
  simp only [pbrfStep]
  split
  · rw [keys_appendRoc]
    exact hins
  · exact hins

/-- Folding pbrf steps keeps the key sequence duplicate-free. -/
theorem nodup_keys_pbrf_foldl (l : List (Nat × ℚ)) (f : BRFractions)
    (h : (f.map Prod.fst).Nodup) : ((l.foldl pbrfStep f).map Prod.fst).Nodup := by
  induction l generalizing f with
  | nil => exact h
  | cons x xs ih => exact ih _ (nodup_keys_pbrfStep f x h)

/-- Weakening the seen-entry list preserves the pbrf record invariant. -/
theorem recInv_mono {s1 s2 : List (Nat × ℚ)} (hsub : ∀ e ∈ s1, e ∈ s2) {f : BRFractions}
    (h : recInv s1 f) : recInv s2 f := by
  intro mp hmp
  obtain ⟨hlen, hr⟩ := h mp hmp
  refine ⟨hlen, fun r hrr => ?_⟩
  obtain ⟨e, he, h1, h2, h3⟩ := hr r hrr
  exact ⟨e, hsub e he, h1, h2, h3⟩

/-- A pbrf step preserves the record invariant, recording the new entry. -/
theorem recInv_pbrfStep {seen : List (Nat × ℚ)} {f : BRFractions} (x : Nat × ℚ)
    (h : recInv seen f) : recInv (seen ++ [x]) (pbrfStep f x) := by
  have hmono : recInv (seen ++ [x]) f :=
    recInv_mono (fun e he => List.mem_append_left _ he) h
  have hins : recInv (seen ++ [x]) (insertEmpty f (rawidOf x.1)) := by
    unfold insertEmpty
    split
    · exact hmono
    · intro mp hmp
      rcases List.mem_append.mp hmp with hmp | hmp
      · exact hmono mp hmp
      · simp only [List.mem_singleton] at hmp
        subst hmp
        exact ⟨rfl, fun r hr => absurd hr (List.not_mem_nil r)⟩
  simp only [pbrfStep]
  split
  · rename_i hroc
    intro mp hmp
    unfold appendRoc at hmp
    rw [List.mem_map] at hmp
    obtain ⟨p, hp, hpe⟩ := hmp
    by_cases hk : p.1 = rawidOf x.1
    · rw [if_pos hk] at hpe
      obtain ⟨hlen, hr⟩ := hins p hp
      subst hpe
      constructor
      · simp [hlen]
      · intro r hr2
        rcases List.mem_append.mp hr2 with hr2 | hr2
        · exact hr r hr2
        · simp only [List.mem_singleton] at hr2
          subst hr2
          exact ⟨x, List.mem_append_right _ (List.mem_singleton_self x), hk.symm, hroc, rfl⟩
    · rw [if_neg hk] at hpe
      subst hpe
      exact hins p hp
  · exact hins

/-- Folding pbrf steps preserves the record invariant. -/
theorem recInv_pbrf_foldl (l : List (Nat × ℚ)) (seen : List (Nat × ℚ)) (f : BRFractions)
    (h : recInv seen f) : recInv (seen ++ l) (l.foldl pbrfStep f) := by
  induction l generalizing seen f with
  | nil => simpa using h
  | cons x xs ih =>
    rw [List.foldl_cons]
    have hstep := ih (seen ++ [x]) (pbrfStep f x) (recInv_pbrfStep x h)
    simpa [List.append_assoc] using hstep

/-! ## Claim theorems -/

/-- C1: getMatchingGeomFactor (resolveScalar) returns the product of the
values of all map entries matching the target, starting from 1; in particular
it returns 1 on the empty map, and 0.72 on a two-entry map with values 0.9 and
0.8 that both match. -/
theorem getMatchingGeomFactor_spec (detid : Nat) (masks : List Nat) :
    (∀ mp : List (Nat × ℚ), getMatchingGeomFactor detid mp masks
        = ((mp.filter fun e => matchesId detid e.1 masks).map Prod.snd).prod) ∧
    getMatchingGeomFactor detid [] masks = 1 ∧
    ∀ k1 k2 : Nat, matchesId detid k1 masks = true → matchesId detid k2 masks = true →
      getMatchingGeomFactor detid [(k1, 9/10), (k2, 8/10)] masks = 72/100 := by
  refine ⟨fun mp => ?_, by simp [getMatchingGeomFactor], fun k1 k2 h1 h2 => ?_⟩
  · unfold getMatchingGeomFactor
    rw [foldl_mul_filter (fun e => matchesId detid e.1 masks) Prod.snd mp 1, one_mul]
  · simp only [getMatchingGeomFactor, List.foldl_cons, List.foldl_nil, h1, h2, if_pos]
    norm_num

/-- Witness for C1 at a concrete barrel target, two stored ids of the same
subdetector and an empty mask list. -/
theorem getMatchingGeomFactor_spec_witness :
    matchesId 301989890 301989888 [] = true ∧ matchesId 301989890 301989889 [] = true ∧
    getMatchingGeomFactor 301989890 [(301989888, 9/10), (301989889, 8/10)] [] = 72/100 :=
  ⟨by decide, by decide,
    (getMatchingGeomFactor_spec 301989890 []).2.2 301989888 301989889 (by decide) (by decide)⟩

/-- C2 counterexample: the claim describes the wildcard comparison as
`storedId &&& m` against `(subsystem-root-id) &&& m`, but the code compares
against the unmasked root identifier; the two predicates disagree at target
570425345, stored id 570425344 and single mask 33554433 (a mask carrying the
stored id's subdetector tag but not its detector bits). -/
theorem matchesId_wildcard_masked_counterexample :
    ¬ (matchesId 570425345 570425344 [33554433] = true ↔
        matchesIdSpec 570425345 570425344 [33554433] = true) := by decide

/-- C2 (amended): the matching predicate holds iff the two identifiers have the
same subdetector tag and every mask of the stored identifier's subdetector
either agrees on the masked bits or finds the stored masked bits equal to the
unmasked subsystem-root identifier; masks of another subdetector are skipped
and a stored entry of another subdetector never matches. -/
theorem matchesId_characterization (detid mapid : Nat) (masks : List Nat) :
    matchesId detid mapid masks = true ↔
      (subdetId mapid = subdetId detid ∧
        ∀ m ∈ masks, subdetId m = subdetId mapid →
          (detid &&& m = mapid &&& m ∨
            mapid &&& m = detIdFrom (detOf mapid) (subdetId mapid))) := by
  simp only [matchesId, Bool.and_eq_true, List.all_eq_true, maskOk, Bool.or_eq_true,
    decide_eq_true_eq, beq_iff_eq]
  constructor
  · rintro ⟨h1, h2⟩
    refine ⟨h1, fun m hm hms => ?_⟩
    rcases h2 m hm with (h | h) | h
    · exact absurd hms h
    · exact Or.inl h
    · exact Or.inr h
  · rintro ⟨h1, h2⟩
    refine ⟨h1, fun m hm => ?_⟩
    by_cases hms : subdetId m = subdetId mapid
    · rcases h2 m hm hms with h | h
      · exact Or.inl (Or.inr h)
      · exact Or.inr h
    · exact Or.inl (Or.inl hms)

/-- Witness for C2 (amended) at a concrete barrel target and the empty mask
list. -/
theorem matchesId_characterization_witness :
    matchesId 301989890 301989888 [] = true :=
  (matchesId_characterization 301989890 301989888 []).mpr
    ⟨by decide, fun m hm => absurd hm (List.not_mem_nil m)⟩

/-- C3: getMatchingPUFactors (resolveVector) scans entries in iteration order,
each matching entry replacing the running result (last match wins); it returns
the empty sequence when no entry matches, in particular when no entry has the
target's subdetector. -/
theorem getMatchingPUFactors_spec (detid : Nat) (mp : List (Nat × List ℚ)) (masks : List Nat) :
    getMatchingPUFactors detid mp masks
        = ((mp.filter fun e => matchesId detid e.1 masks).map Prod.snd).getLastD [] ∧
    ((∀ e ∈ mp, matchesId detid e.1 masks = false) → getMatchingPUFactors detid mp masks = []) ∧
    ((∀ e ∈ mp, subdetId e.1 ≠ subdetId detid) → getMatchingPUFactors detid mp masks = []) := by
  have hchar : getMatchingPUFactors detid mp masks
      = ((mp.filter fun e => matchesId detid e.1 masks).map Prod.snd).getLastD [] := by
    unfold getMatchingPUFactors
    rw [foldl_replace (fun e => matchesId detid e.1 masks) Prod.snd mp []]
  refine ⟨hchar, fun h => ?_, fun h => ?_⟩
  · rw [hchar, List.filter_eq_nil_iff.mpr (fun e he => by simp [h e he])]
    rfl
  · rw [hchar, List.filter_eq_nil_iff.mpr (fun e he => ?_)]
    · rfl
    · simp [matchesId, h e he]

/-- C4: for both region-field shift constants 3 and 6, the decomposition of a
32-bit identifier into module id and region index recombines to the original
identifier, and the decode used by pbrf (shift selected by subdetector tag,
always 6 or 3) satisfies the same round trip; the decode is a total function
of the identifier. -/
theorem region_decode_roundtrip (id : Nat) (hid : id < 2 ^ 32) (s : Nat) (hs : s = 3 ∨ s = 6) :
    ((id &&& ((31 <<< s) ^^^ (2 ^ 32 - 1))) ||| (((id &&& (31 <<< s)) >>> s) <<< s) = id) ∧
    (rawidOf id ||| (rocIdOf id <<< shiftOf id) = id) ∧
    (shiftOf id = 6 ∨ shiftOf id = 3) := by
  have hss : shiftOf id = 6 ∨ shiftOf id = 3 := by
    unfold shiftOf
    split
    · exact Or.inl rfl
    · exact Or.inr rfl
  refine ⟨?_, ?_, hss⟩
  · rcases hs with rfl | rfl
    · exact land_compl_lor_roundtrip id 3 hid (by norm_num)
    · exact land_compl_lor_roundtrip id 6 hid (by norm_num)
  · have h := land_compl_lor_roundtrip id (shiftOf id) hid (by rcases hss with h | h <;> omega)
    simpa only [rawidOf, rocIdOf, rocMaskOf] using h

/-- Witness for C4 at a concrete barrel identifier carrying region index 3. -/
theorem region_decode_roundtrip_witness :
    (301990080 : Nat) < 2 ^ 32 ∧
      rawidOf 301990080 ||| (rocIdOf 301990080 <<< shiftOf 301990080) = 301990080 :=
  ⟨by norm_num, (region_decode_roundtrip 301990080 (by norm_num) 3 (Or.inl rfl)).2.1⟩

/-- Witness for C3: a single stored entry of a different subdetector yields the
empty sequence. -/
theorem getMatchingPUFactors_spec_witness :
    getMatchingPUFactors 301989888 [(0, ([] : List ℚ))] [] = [] :=
  (getMatchingPUFactors_spec 301989888 [(0, ([] : List ℚ))] []).2.2 (by
    intro e he
    simp only [List.mem_singleton] at he
    subst he
    decide)

/-- C5: pbrf on a two-entry map holding the same barrel module with raw region
index 0 (value 0.9) and raw region index 3 (value 0.5) yields exactly one
module key whose record holds the single region entry (2, 0.5): the raw index
is decremented, the value is 1 minus the stored factor, and the raw-region-0
entry contributes no record while guaranteeing the module key. -/
theorem pbrf_two_entry_example :
    pbrf [(301989888, 9/10), (301990080, 1/2)] = [(301989888, ⟨[2], [1/2]⟩)] := by
  simp +decide [pbrf, pbrfStep, insertEmpty, appendRoc, rocIdOf, rawidOf, rocMaskOf,
    shiftOf, subdetId, pixelBarrel]
  norm_num

/-- C6: the key set of pbrf output is exactly the set of decoded module ids of
the input keys, no module appears twice, every record keeps its two sequences
length-synchronized, and every emitted region index comes from an input entry
with a nonzero raw region index (the raw 0 sentinel is never emitted). -/
theorem pbrf_invariants (input : List (Nat × ℚ)) :
    ((pbrf input).map Prod.fst).Nodup ∧
    (∀ m : Nat, m ∈ (pbrf input).map Prod.fst ↔ m ∈ input.map fun e => rawidOf e.1) ∧
    (∀ mp ∈ pbrf input, mp.2.badRocNumber.length = mp.2.badRocFrac.length ∧
      ∀ r ∈ mp.2.badRocNumber, ∃ e ∈ input,
        rawidOf e.1 = mp.1 ∧ rocIdOf e.1 ≠ 0 ∧ r = rocIdOf e.1 - 1) := by
  refine ⟨?_, fun m => ?_, ?_⟩
  · exact nodup_keys_pbrf_foldl input [] (by simp)
  · rw [pbrf, mem_keys_pbrf_foldl]
    simp
  · have hbase : recInv [] ([] : BRFractions) :=
      fun mp hmp => absurd hmp (List.not_mem_nil mp)
    have h := recInv_pbrf_foldl input [] [] hbase
    rw [List.nil_append] at h
    exact h

/-- Witness for C6 at a concrete one-entry input. -/
theorem pbrf_invariants_witness :
    ((pbrf [(301990080, 1/2)]).map Prod.fst).Nodup :=
  (pbrf_invariants [(301990080, 1/2)]).1

/-- Pairwise equality of zipped lists amounts to list equality once the
lengths agree. -/
theorem zip_all_beq_iff (g d : List Nat) (h : g.length = d.length) :
    (((List.zip g d).all fun p => p.1 == p.2) = true) ↔ g = d := by
  induction g generalizing d with
  | nil =>
    cases d with
    | nil => simp
    | cons y ys => simp at h
  | cons x xs ih =>
    cases d with
    | nil => simp at h
    | cons y ys =>
      have hlen : xs.length = ys.length := by simpa using h
      simp [List.zip_cons_cons, ih ys hlen, List.cons.injEq]

/-- isqrtFind finds the largest value at most its bound whose square is at
most n. -/
theorem isqrtFind_spec (n : Nat) :
    ∀ t, isqrtFind n t * isqrtFind n t ≤ n ∧ isqrtFind n t ≤ t ∧
      ∀ k, k ≤ t → k * k ≤ n → k ≤ isqrtFind n t := by
  intro t
  induction t with
  | zero => exact ⟨by simp [isqrtFind], Nat.le_refl 0, fun k hk _ => hk⟩
  | succ t ih =>
    unfold isqrtFind
    split
    · rename_i h
      exact ⟨h, Nat.le_refl _, fun k hk _ => hk⟩
    · rename_i h
      obtain ⟨h1, h2, h3⟩ := ih
      refine ⟨h1, Nat.le_succ_of_le h2, fun k hk hkk => ?_⟩
      have hne : k ≠ t + 1 := fun he => h (he ▸ hkk)
      exact h3 k (by omega) hkk

/-- isqrt agrees with the mathematical integer square root. -/
theorem isqrt_eq_sqrt (n : Nat) : isqrt n = Nat.sqrt n := by
  obtain ⟨h1, h2, h3⟩ := isqrtFind_spec n n
  refine Nat.le_antisymm (Nat.le_sqrt.mpr h1) ?_
  exact h3 (Nat.sqrt n) (Nat.sqrt_le_self n) (Nat.sqrt_le n)

/-- findDivisorDown returns the largest divisor of a positive input not
exceeding its positive starting bound. -/
theorem findDivisorDown_spec (input : Nat) (hi : 1 ≤ input) :
    ∀ t, 1 ≤ t → (findDivisorDown input t ∣ input ∧ 1 ≤ findDivisorDown input t ∧
      findDivisorDown input t ≤ t ∧
      ∀ d, d ∣ input → d ≤ t → d ≤ findDivisorDown input t) := by
  intro t
  induction t with
  | zero => intro h; omega
  | succ t ih =>
    intro _
    unfold findDivisorDown
    split
    · rename_i h
      exact ⟨Nat.dvd_of_mod_eq_zero h, by omega, Nat.le_refl _, fun d _ hd => hd⟩
    · rename_i h
      have ht1 : 1 ≤ t := by
        rcases Nat.eq_zero_or_pos t with h0 | h0
        · subst h0
          exact absurd (Nat.mod_one input) h
        · exact h0
      obtain ⟨h1, h2, h3, h4⟩ := ih ht1
      refine ⟨h1, h2, Nat.le_succ_of_le h3, fun d hdvd hdle => ?_⟩
      have hne : d ≠ t + 1 := by
        rintro rfl
        exact h (Nat.mod_eq_zero_of_dvd hdvd)
      exact h4 d hdvd (by omega)

/-- C7: checkPhase returns true iff the supplied list has the same length as
the synthesized mask sequence and is element-wise equal to it in order; each
phase's own synthesized masks validate, and masks synthesized for a phase with
a different field layout are rejected. -/
theorem checkPhase_spec :
    (∀ (p : Phase) (db : List Nat), checkPhase p db = true ↔
        (db.length = (expectedMasks p).length ∧
          ∀ i, i < db.length → db.getD i 0 = (expectedMasks p).getD i 0)) ∧
    (∀ p : Phase, checkPhase p (expectedMasks p) = true) ∧
    checkPhase Phase.one (expectedMasks Phase.zero) = false := by
  refine ⟨fun p db => ?_, fun p => ?_, by decide⟩
  · unfold checkPhase
    simp only [Bool.and_eq_true, beq_iff_eq]
    constructor
    · rintro ⟨hlen, hall⟩
      have heq : expectedMasks p = db := (zip_all_beq_iff _ _ hlen).mp hall
      subst heq
      exact ⟨rfl, fun i _ => rfl⟩
    · rintro ⟨hlen, hall⟩
      have heq : expectedMasks p = db := by
        apply List.ext_getElem (by omega)
        intro i h1 h2
        have hgd := hall i (by omega)
        rw [List.getD_eq_getElem db 0 h2, List.getD_eq_getElem (expectedMasks p) 0 h1] at hgd
        exact hgd.symm
      subst heq
      exact ⟨by trivial, (zip_all_beq_iff _ _ rfl).mpr rfl⟩
  · unfold checkPhase
    simp only [Bool.and_eq_true, beq_iff_eq]
    exact ⟨by trivial, (zip_all_beq_iff _ _ rfl).mpr rfl⟩

/-- Witness for C7: phase one validates its own synthesized masks. -/
theorem checkPhase_spec_witness : checkPhase Phase.one (expectedMasks Phase.one) = true :=
  checkPhase_spec.2.1 Phase.one

/-- C10: every phase's synthesized mask sequence has exactly 8 elements (three
barrel masks then five forward masks), hence checkPhase rejects any supplied
list whose length differs from 8 regardless of content. -/
theorem checkPhase_length_spec :
    (∀ p : Phase, (expectedMasks p).length = 8) ∧
    (∀ (p : Phase) (db : List Nat), db.length ≠ 8 → checkPhase p db = false) := by
  have hlen : ∀ p : Phase, (expectedMasks p).length = 8 := by
    intro p
    cases p <;> rfl
  refine ⟨hlen, fun p db hdb => ?_⟩
  unfold checkPhase
  have hne : ((expectedMasks p).length == db.length) = false := by
    rw [beq_eq_false_iff_ne, hlen p]
    omega
  simp [hne]

/-- Witness for C10: the empty supplied list is rejected for phase zero. -/
theorem checkPhase_length_spec_witness : checkPhase Phase.zero [] = false :=
  checkPhase_length_spec.2 Phase.zero [] (by norm_num)

/-- C8: getClosestFactors on a positive count returns (r, c) with r * c ≥ n
and r ≤ c, where r is the largest divisor of the even cover of n not
exceeding the cover's integer square root and c is the cover divided by r;
concretely 6 gives (2,3), 7 gives (2,4) and 1 gives (1,1). -/
theorem getClosestFactors_spec (n : Nat) (hn : 1 ≤ n) :
    n ≤ (getClosestFactors n).1 * (getClosestFactors n).2 ∧
    (getClosestFactors n).1 ≤ (getClosestFactors n).2 ∧
    (getClosestFactors n).1 ∣ evenCover n ∧
    (getClosestFactors n).1 ≤ Nat.sqrt (evenCover n) ∧
    (∀ d, d ∣ evenCover n → d ≤ Nat.sqrt (evenCover n) → d ≤ (getClosestFactors n).1) ∧
    (getClosestFactors n).2 = evenCover n / (getClosestFactors n).1 ∧
    getClosestFactors 6 = (2, 3) ∧ getClosestFactors 7 = (2, 4) ∧
    getClosestFactors 1 = (1, 1) := by
  have hcov : n ≤ evenCover n := by
    unfold evenCover
    split <;> omega
  have hcov1 : 1 ≤ evenCover n := Nat.le_trans hn hcov
  have hsq1 : 1 ≤ isqrt (evenCover n) := by
    rw [isqrt_eq_sqrt]
    exact Nat.le_sqrt.mpr (by simpa using hcov1)
  obtain ⟨hd, h1, hle, hmax⟩ :=
    findDivisorDown_spec (evenCover n) hcov1 (isqrt (evenCover n)) hsq1
  set r := findDivisorDown (evenCover n) (isqrt (evenCover n)) with hrdef
  refine ⟨?_, ?_, ?_, ?_, ?_, ?_, by decide, by decide, by decide⟩
  · show n ≤ r * (evenCover n / r)
    rw [Nat.mul_div_cancel' hd]
    exact hcov
  · show r ≤ evenCover n / r
    rw [Nat.le_div_iff_mul_le h1]
    calc r * r ≤ isqrt (evenCover n) * isqrt (evenCover n) := Nat.mul_le_mul hle hle
      _ = Nat.sqrt (evenCover n) * Nat.sqrt (evenCover n) := by rw [isqrt_eq_sqrt]
      _ ≤ evenCover n := Nat.sqrt_le (evenCover n)
  · show r ∣ evenCover n
    exact hd
  · show r ≤ Nat.sqrt (evenCover n)
    rw [← isqrt_eq_sqrt]
    exact hle
  · intro d hdd hds
    show d ≤ r
    exact hmax d hdd (by rwa [isqrt_eq_sqrt])
  · show evenCover n / r = evenCover n / r
    rfl

/-- Witness for C8 at count 7. -/
theorem getClosestFactors_spec_witness :
    1 ≤ 7 ∧ 7 ≤ (getClosestFactors 7).1 * (getClosestFactors 7).2 :=
  ⟨by norm_num, (getClosestFactors_spec 7 (by norm_num)).1⟩

/-- C9: the only computation of getClosestFactors preceding the square-root
cast passes negative inputs through unchanged; the function has no
InvalidArgument (or any other) error path, so negative counts reach the
undefined `(int)sqrt` cast instead of being rejected. -/
theorem getClosestFactors_no_negative_guard :
    adjustEven (-2) = -2 ∧ adjustEven (-3) = -3 := by
  constructor <;> decide

end SiPixDynIneff
